import Mathlib

/-!
Verification development for the dependency-extraction / archival pipeline of
nuke_copy_reads_nk_parser.py.

The Python source is shallowly embedded:

* strings are Lean Strings / List Char; Python str.strip, str.replace,
  "c in s" and re-based prefix matching are modelled by explicit functions;
* the printf-style substitution "path % frame" of CPython (a single int
  argument) is modelled by percentFormat, including the flag/width/precision
  grammar, argument-count accounting, and CPython's error taxonomy
  (TypeError / ValueError / OverflowError);
* the file system touched by copy_worker is an oracle record FS (existence
  check plus the possible failure of os.makedirs / shutil.copy2), and a
  worker's mutations are reported as an explicit list of operations so that
  frame properties of the dry-run mode are statable;
* thread-pool concurrency is not modelled: outcomes are tallied in submission
  order.  The real as_completed order is nondeterministic, and every theorem
  below about the tally is order-independent (counts and membership).
-/

deriving instance DecidableEq for Except

namespace NkCopy

/-- Whitespace as recognised by Python str.strip and the regex class \s
(restricted to the ASCII range; the scripts only ever see ASCII paths). -/
def pyIsSpace (c : Char) : Bool :=
  c = ' ' ∨ c = '\t' ∨ c = '\n' ∨ c = '\r' ∨ c = '\x0b' ∨ c = '\x0c'

/-- Python str.strip on a character list: drop whitespace on both ends. -/
def pyStripL (l : List Char) : List Char :=
  ((l.dropWhile pyIsSpace).reverse.dropWhile pyIsSpace).reverse

/-- Python str.strip. -/
def pyStrip (s : String) : String := String.mk (pyStripL s.data)

/-- Python membership test "c in s". -/
def hasChar (c : Char) (l : List Char) : Bool := l.any fun x => x = c

/-- ASCII decimal digit. -/
def isDigitC (c : Char) : Bool := '0' ≤ c ∧ c ≤ '9'

/-- The character of a single decimal digit. -/
def digitChar (n : Nat) : Char := Char.ofNat (48 + n)

/-- Fuel-driven digit expansion; the fuel always suffices when it exceeds n
(division by 10 strictly shrinks a number of at least 10).  Structural
recursion keeps the function computable inside the kernel. -/
def natDigitsAux : Nat → Nat → List Char
  | 0, n => [digitChar n]
  | fuel + 1, n =>
    if n < 10 then [digitChar n]
    else natDigitsAux fuel (n / 10) ++ [digitChar (n % 10)]

/-- Decimal digits of a natural number, most significant first (no sign,
no leading zeros; 0 renders as "0"). -/
def natDigits (n : Nat) : List Char := natDigitsAux n n

/-- Numeric value of a digit character. -/
def digitVal (c : Char) : Nat := c.toNat - 48

/-- Fold a run of digit characters onto an accumulator (how a scanner reads
a decimal number left to right). -/
def digitsValFrom (a : Nat) (l : List Char) : Nat :=
  l.foldl (fun acc c => 10 * acc + digitVal c) a

/-- Digit character in an arbitrary base up to 16 (letters for 10..15). -/
def digitCharB (upper : Bool) (n : Nat) : Char :=
  if n < 10 then Char.ofNat (48 + n)
  else Char.ofNat ((if upper then 55 else 87) + n)

/-- Fuel-driven base-b digit expansion (structural, kernel-computable; the
fuel n suffices for the bases 8 and 16 used below). -/
def natDigitsBAux (b : Nat) (upper : Bool) : Nat → Nat → List Char
  | 0, n => [digitCharB upper n]
  | fuel + 1, n =>
    if b ≤ 1 then [digitCharB upper n]
    else if n < b then [digitCharB upper n]
    else natDigitsBAux b upper fuel (n / b) ++ [digitCharB upper (n % b)]

/-- Digits of a natural number in base b (b = 8 or 16 here), most significant
first. -/
def natDigitsB (b : Nat) (upper : Bool) (n : Nat) : List Char :=
  natDigitsBAux b upper n n

/-- Decimal rendering of a Python int (sign plus digits), i.e. str(i). -/
def intDecimal (i : Int) : List Char :=
  if i < 0 then '-' :: natDigits i.natAbs else natDigits i.natAbs

/-- Error taxonomy of the CPython operations the script performs.  The source
catches TypeError during "path % f" (expand_read_to_files line 159); every
other exception propagates. -/
inductive PyErr
  | typeError
  | valueError
  | overflowError
deriving DecidableEq

/-- Parsed state of one percent conversion specifier: flags, minimum field
width and optional precision, as in CPython's unicode_format_arg_parse. -/
structure FSpec where
  minus : Bool := false
  plus : Bool := false
  space : Bool := false
  hash : Bool := false
  zero : Bool := false
  width : Nat := 0
  prec : Option Nat := none
deriving DecidableEq

/-- Conversion flag characters of the percent grammar. -/
def isFlagC (c : Char) : Bool :=
  c = '-' ∨ c = '+' ∨ c = ' ' ∨ c = '#' ∨ c = '0'

/-- C-style length modifiers, parsed and ignored by CPython (one at most). -/
def isLenMod (c : Char) : Bool := c = 'h' ∨ c = 'l' ∨ c = 'L'

/-- Spaces for field padding. -/
def spaces (n : Nat) : List Char := List.replicate n ' '

/-- Zero characters for field padding. -/
def zeros (n : Nat) : List Char := List.replicate n '0'

/-- Padding and sign logic shared by the integer conversions d/i/u/o/x/X:
precision gives a minimum digit count (zero-extended), the 0 flag pads with
zeros up to the width (unless left-justified), and the sign (or +/space
flag) precedes any 0x/0o/0X prefix and the zeros. -/
def fmtIntCore (sp : FSpec) (pfx : List Char) (neg : Bool) (mag : List Char) :
    List Char :=
  let mag := match sp.prec with
    | some p => zeros (p - mag.length) ++ mag
    | none => mag
  let sign : List Char :=
    if neg then ['-'] else if sp.plus then ['+'] else if sp.space then [' '] else []
  let core := sign ++ pfx ++ mag
  if sp.minus then core ++ spaces (sp.width - core.length)
  else if sp.zero then sign ++ pfx ++ zeros (sp.width - core.length) ++ mag
  else spaces (sp.width - core.length) ++ core

/-- The d/i/u conversions of "fmt % i". -/
def fmtDec (sp : FSpec) (i : Int) : List Char :=
  fmtIntCore sp [] (i < 0) (natDigits i.natAbs)

/-- The o/x/X conversions of "fmt % i" (base, upper case, alternate prefix). -/
def fmtBase (sp : FSpec) (b : Nat) (upper : Bool) (pfx : List Char) (i : Int) :
    List Char :=
  fmtIntCore sp (if sp.hash then pfx else []) (i < 0) (natDigitsB b upper i.natAbs)

/-- Width padding for the non-numeric conversions c/s/r/a (space fill). -/
def padStr (sp : FSpec) (s : List Char) : List Char :=
  if sp.minus then s ++ spaces (sp.width - s.length)
  else spaces (sp.width - s.length) ++ s

/-- Approximation of the float conversions e/E/f/F/g/G applied to an int
argument.  CPython converts the integer to a C double first (rounding it to
53 bits of mantissa and raising OverflowError beyond the double range) and
then renders the double; this model renders the exact integer instead, with
truncation rather than round-to-nearest in the e/g mantissa.  The results
agree with CPython for the small integers that can occur in frame ranges;
no claim in this development depends on these conversions — they are defined
only so that percentFormat is total on the full conversion alphabet. -/
def fmtFloatApprox (sp : FSpec) (c : Char) (i : Int) : List Char :=
  let prec := sp.prec.getD 6
  let ds := natDigits i.natAbs
  let upper := c = 'E' ∨ c = 'F' ∨ c = 'G'
  let eChar : Char := if upper then 'E' else 'e'
  let expDigits : Nat → List Char := fun e =>
    if e < 10 then '0' :: natDigits e else natDigits e
  let eTail : List Char := [eChar, '+'] ++ expDigits (ds.length - 1)
  let eForm : Nat → List Char := fun p =>
    (ds.take 1)
      ++ (if p = 0 then (if sp.hash then ['.'] else [])
          else '.' :: (ds.drop 1 ++ zeros p).take p)
      ++ eTail
  let body :=
    if c = 'f' ∨ c = 'F' then
      ds ++ (if prec = 0 then (if sp.hash then ['.'] else []) else '.' :: zeros prec)
    else if c = 'e' ∨ c = 'E' then eForm prec
    else
      let p := max prec 1
      if ds.length ≤ p then
        if sp.hash then ds ++ '.' :: zeros (p - ds.length) else ds
      else
        let frac := (ds.drop 1 ++ zeros (p - 1)).take (p - 1)
        let frac := if sp.hash then frac else (frac.reverse.dropWhile (· = '0')).reverse
        (ds.take 1)
          ++ (if frac = [] then (if sp.hash then ['.'] else []) else '.' :: frac)
          ++ eTail
  let sign : List Char :=
    if i < 0 then ['-'] else if sp.plus then ['+'] else if sp.space then [' '] else []
  let core := sign ++ body
  if sp.minus then core ++ spaces (sp.width - core.length)
  else if sp.zero then sign ++ zeros (sp.width - core.length) ++ body
  else spaces (sp.width - core.length) ++ core

/-- One conversion character applied to the single int argument.  Returns the
produced chunk and the new consumed-flag, or the CPython exception.  CPython
fetches the argument before inspecting the conversion character, so an
exhausted argument is TypeError ("not enough arguments for format string")
even for an invalid conversion; an unknown conversion character (including a
'%' that is not immediately after the opening '%') raises ValueError; '%c'
raises OverflowError outside the chr range.  (Lean's Char cannot hold lone
surrogates, so chr is approximated by Char.ofNat; the scripts never format
'%c'.) -/
def emitConv (sp : FSpec) (c : Char) (arg : Int) (consumed : Bool) :
    Except PyErr (List Char × Bool) :=
  if consumed then .error .typeError
  else if c = 'd' ∨ c = 'i' ∨ c = 'u' then .ok (fmtDec sp arg, true)
  else if c = 'o' then .ok (fmtBase sp 8 false ['0', 'o'] arg, true)
  else if c = 'x' then .ok (fmtBase sp 16 false ['0', 'x'] arg, true)
  else if c = 'X' then .ok (fmtBase sp 16 true ['0', 'X'] arg, true)
  else if c = 'c' then
    if 0 ≤ arg ∧ arg < 1114112 then .ok (padStr sp [Char.ofNat arg.toNat], true)
    else .error .overflowError
  else if c = 's' ∨ c = 'r' ∨ c = 'a' then
    let s := intDecimal arg
    let s := match sp.prec with | some p => s.take p | none => s
    .ok (padStr sp s, true)
  else if c = 'e' ∨ c = 'E' ∨ c = 'f' ∨ c = 'F' ∨ c = 'g' ∨ c = 'G' then
    .ok (fmtFloatApprox sp c arg, true)
  else .error .valueError

/-- Scanner mode of the percent-format interpreter, mirroring the phases of
CPython's unicode_format_arg_parse. -/
inductive PMode
  | copy
  | start0
  | flags (sp : FSpec)
  | width (sp : FSpec) (acc : Nat)
  | wpost (sp : FSpec)
  | dot (sp : FSpec)
  | precd (sp : FSpec) (acc : Nat)
  | ppost (sp : FSpec)
  | lenmod (sp : FSpec)
deriving DecidableEq

/-- The percent-format scanner over the remaining characters.  arg is the one
int argument, consumed records whether it has been used (CPython's single
non-tuple argument behaves as a 1-tuple).  A '%' directly after the opening
'%' is a literal percent and touches no argument; a '(' directly after it
demands a mapping argument, which an int never is, hence TypeError; reaching
the end of the string inside a specifier is ValueError ("incomplete
format"). -/
def pfRun : List Char → PMode → Int → Bool → Except PyErr (List Char × Bool)
  | [], .copy, _, consumed => .ok ([], consumed)
  | [], _, _, _ => .error .valueError
  | c :: rest, .copy, arg, consumed =>
    if c = '%' then pfRun rest .start0 arg consumed
    else (pfRun rest .copy arg consumed).map fun p => (c :: p.1, p.2)
  | c :: rest, .start0, arg, consumed =>
    if c = '%' then (pfRun rest .copy arg consumed).map fun p => ('%' :: p.1, p.2)
    else if c = '(' then .error .typeError
    else if c = '-' then pfRun rest (.flags { minus := true }) arg consumed
    else if c = '+' then pfRun rest (.flags { plus := true }) arg consumed
    else if c = ' ' then pfRun rest (.flags { space := true }) arg consumed
    else if c = '#' then pfRun rest (.flags { hash := true }) arg consumed
    else if c = '0' then pfRun rest (.flags { zero := true }) arg consumed
    else if isDigitC c then pfRun rest (.width {} (digitVal c)) arg consumed
    else if c = '*' then
      if consumed then .error .typeError
      else pfRun rest (.wpost { minus := arg < 0, width := arg.natAbs }) arg true
    else if c = '.' then pfRun rest (.dot {}) arg consumed
    else if isLenMod c then pfRun rest (.lenmod {}) arg consumed
    else
      match emitConv {} c arg consumed with
      | .ok (out, consumed') =>
        (pfRun rest .copy arg consumed').map fun p => (out ++ p.1, p.2)
      | .error e => .error e
  | c :: rest, .flags sp, arg, consumed =>
    if c = '-' then pfRun rest (.flags { sp with minus := true }) arg consumed
    else if c = '+' then pfRun rest (.flags { sp with plus := true }) arg consumed
    else if c = ' ' then pfRun rest (.flags { sp with space := true }) arg consumed
    else if c = '#' then pfRun rest (.flags { sp with hash := true }) arg consumed
    else if c = '0' then pfRun rest (.flags { sp with zero := true }) arg consumed
    else if isDigitC c then pfRun rest (.width sp (digitVal c)) arg consumed
    else if c = '*' then
      if consumed then .error .typeError
      else pfRun rest (.wpost { sp with minus := sp.minus ∨ arg < 0, width := arg.natAbs }) arg true
    else if c = '.' then pfRun rest (.dot sp) arg consumed
    else if isLenMod c then pfRun rest (.lenmod sp) arg consumed
    else
      match emitConv sp c arg consumed with
      | .ok (out, consumed') =>
        (pfRun rest .copy arg consumed').map fun p => (out ++ p.1, p.2)
      | .error e => .error e
  | c :: rest, .width sp acc, arg, consumed =>
    if isDigitC c then pfRun rest (.width sp (10 * acc + digitVal c)) arg consumed
    else if c = '.' then pfRun rest (.dot { sp with width := acc }) arg consumed
    else if isLenMod c then pfRun rest (.lenmod { sp with width := acc }) arg consumed
    else
      match emitConv { sp with width := acc } c arg consumed with
      | .ok (out, consumed') =>
        (pfRun rest .copy arg consumed').map fun p => (out ++ p.1, p.2)
      | .error e => .error e
  | c :: rest, .wpost sp, arg, consumed =>
    if c = '.' then pfRun rest (.dot sp) arg consumed
    else if isLenMod c then pfRun rest (.lenmod sp) arg consumed
    else
      match emitConv sp c arg consumed with
      | .ok (out, consumed') =>
        (pfRun rest .copy arg consumed').map fun p => (out ++ p.1, p.2)
      | .error e => .error e
  | c :: rest, .dot sp, arg, consumed =>
    if isDigitC c then pfRun rest (.precd sp (digitVal c)) arg consumed
    else if c = '*' then
      if consumed then .error .typeError
      else pfRun rest (.ppost { sp with prec := some (if arg < 0 then 0 else arg.natAbs) }) arg true
    else if isLenMod c then pfRun rest (.lenmod { sp with prec := some 0 }) arg consumed
    else
      match emitConv { sp with prec := some 0 } c arg consumed with
      | .ok (out, consumed') =>
        (pfRun rest .copy arg consumed').map fun p => (out ++ p.1, p.2)
      | .error e => .error e
  | c :: rest, .precd sp acc, arg, consumed =>
    if isDigitC c then pfRun rest (.precd sp (10 * acc + digitVal c)) arg consumed
    else if isLenMod c then pfRun rest (.lenmod { sp with prec := some acc }) arg consumed
    else
      match emitConv { sp with prec := some acc } c arg consumed with
      | .ok (out, consumed') =>
        (pfRun rest .copy arg consumed').map fun p => (out ++ p.1, p.2)
      | .error e => .error e
  | c :: rest, .ppost sp, arg, consumed =>
    if isLenMod c then pfRun rest (.lenmod sp) arg consumed
    else
      match emitConv sp c arg consumed with
      | .ok (out, consumed') =>
        (pfRun rest .copy arg consumed').map fun p => (out ++ p.1, p.2)
      | .error e => .error e
  | c :: rest, .lenmod sp, arg, consumed =>
    match emitConv sp c arg consumed with
    | .ok (out, consumed') =>
      (pfRun rest .copy arg consumed').map fun p => (out ++ p.1, p.2)
    | .error e => .error e

/-- CPython "fmt % arg" for a single int argument: run the scanner; if the
argument was never consumed the result is TypeError ("not all arguments
converted during string formatting"). -/
def percentFormat (cs : List Char) (arg : Int) : Except PyErr (List Char) :=
  match pfRun cs .copy arg false with
  | .ok (out, consumed) => if consumed then .ok out else .error .typeError
  | .error e => .error e

/-!
Embedding of the .nk data model and of expand_read_to_files
(nuke_copy_reads_nk_parser.py lines 44-53 and 124-166).
-/

/-- One parsed Read / DeepRead node (class ReadEntry of the source; all
attribute fields start out as Python None, i.e. Option.none). -/
structure ReadEntry where
  node_type : String := "Read"
  name : Option String := none
  file : Option String := none
  first : Option Int := none
  last : Option Int := none
deriving DecidableEq

/-- The first maximal run of '#' characters in the pattern, i.e. the text
matched by re.search of one-or-more '#' (leftmost, greedy). -/
def firstHashRun : List Char → Option (List Char)
  | [] => none
  | c :: rest =>
    if c = '#' then some (c :: rest.takeWhile (fun x => x = '#'))
    else firstHashRun rest

/-- Fuel-driven replacement scan (structural, kernel-computable; the fuel
always suffices when it exceeds the length of s, because a nonempty match
consumes at least one character). -/
def replaceAllAux (pat rep : List Char) : Nat → List Char → List Char
  | 0, s => s
  | fuel + 1, s =>
    match s with
    | [] => []
    | c :: rest =>
      if pat ≠ [] ∧ pat.isPrefixOf (c :: rest) then
        rep ++ replaceAllAux pat rep fuel ((c :: rest).drop pat.length)
      else c :: replaceAllAux pat rep fuel rest

/-- Python str.replace: replace every occurrence of pat, scanning left to
right without overlap.  (The source only calls it with a nonempty pat; for
an empty pat the string is returned unchanged here.) -/
def replaceAll (s pat rep : List Char) : List Char :=
  replaceAllAux pat rep s.length s

/-- The printf placeholder the source builds for a hash run of length pad,
exactly as the source does: "%%0%dd" % pad (line 147). -/
def hashFmt (pad : Nat) : List Char :=
  match percentFormat ['%', '%', '0', '%', 'd', 'd'] (Int.ofNat pad) with
  | .ok s => s
  | .error _ => []

/-- Rewriting of hash padding notation (lines 142-150): find the first run
of '#', build the "%0Nd" placeholder for its length, and str.replace every
occurrence of that run's text. -/
def hashRewrite (path : List Char) : List Char :=
  match firstHashRun path with
  | some run => replaceAll path run (hashFmt run.length)
  | none => path

/-- The frame numbers of Python range(first, last + 1), in order. -/
def rangeList (first last : Int) : List Int :=
  (List.range (last + 1 - first).toNat).map fun n => first + Int.ofNat n

/-- The substitution loop of lines 156-161: append "path % f" per frame; on
TypeError append the unsubstituted pattern once and stop; any other
exception propagates (only TypeError is caught by the source). -/
def substLoop (path : List Char) (frames : List Int) :
    Except PyErr (List (List Char)) :=
  match frames with
  | [] => .ok []
  | f :: rest =>
    match percentFormat path f with
    | .ok s => (substLoop path rest).map fun l => s :: l
    | .error .typeError => .ok [path]
    | .error e => .error e

/-- The sequence-or-single-file step of expand_read_to_files (lines
152-164), applied to the possibly rewritten pattern: a '%' pattern is
expanded over the frame range (first defaulting to 1, last to first);
otherwise the pattern itself is the single file. -/
def expandTail (path : List Char) (first? last? : Option Int) :
    Except PyErr (List (List Char)) :=
  if hasChar '%' path then
    substLoop path (rangeList (first?.getD 1) (last?.getD (first?.getD 1)))
  else .ok [path]

/-- Core of expand_read_to_files after the initial strip (lines 131-166):
empty pattern gives no files; a pattern containing both '[' and ']' is an
unresolvable TCL expression and is skipped; a '#' run without any '%' is
rewritten to a printf placeholder; then expandTail expands the result. -/
def expandCore (path : List Char) (first? last? : Option Int) :
    Except PyErr (List (List Char)) :=
  if path = [] then .ok []
  else if hasChar '[' path ∧ hasChar ']' path then .ok []
  else
    expandTail (if hasChar '#' path ∧ ¬ hasChar '%' path then hashRewrite path else path)
      first? last?

/-- expand_read_to_files (lines 124-166): strip the file attribute (Python
None reads as "") and run the core expansion. -/
def expand_read_to_files (r : ReadEntry) : Except PyErr (List String) :=
  (expandCore (pyStripL (r.file.getD "").data) r.first r.last).map fun l =>
    l.map String.mk

/-- Zero-padded decimal of width k: the text "%0kd" % i produces.  Used to
state theorems about hash-run expansion. -/
def zeroPad (k : Nat) (i : Int) : List Char :=
  let mag := natDigits i.natAbs
  let sign : List Char := if i < 0 then ['-'] else []
  sign ++ zeros (k - (sign.length + mag.length)) ++ mag

/-!
Embedding of parse_nk_for_reads (lines 56-111).  The input document is
taken as its list of lines (readlines with universal newlines; the trailing
newline of each line is immaterial to every regex involved and is omitted).
The regex classes \s and \w are modelled over the ASCII range.
-/

/-- Word character for the regex boundary after the node keyword. -/
def isWordChar (c : Char) : Bool := c.isAlphanum ∨ c = '_'

/-- Match of the line against a leading keyword followed by a word boundary,
after optional indentation: the node-start regex with keyword Read or
DeepRead. -/
def kwBoundary (kw : List Char) (line : List Char) : Bool :=
  let l := line.dropWhile pyIsSpace
  kw.isPrefixOf l &&
    match l.drop kw.length with
    | [] => true
    | c :: _ => ! isWordChar c

/-- Node-start match (regex Read-or-DeepRead with word boundary, line 66),
returning the matched node type. -/
def nodeStart (line : List Char) : Option String :=
  if kwBoundary "Read".data line then some "Read"
  else if kwBoundary "DeepRead".data line then some "DeepRead"
  else none

/-- Unquoting of an attribute value (lines 88-89 / 95-96): strip one pair of
double quotes or braces when the value both starts and ends with them. -/
def unquote (l : List Char) : List Char :=
  if (l.head? = some '"' ∧ l.getLast? = some '"') ∨
      (l.head? = some '{' ∧ l.getLast? = some '}') then
    (l.drop 1).dropLast
  else l

/-- String-valued attribute line: the regex of optional indentation, the
keyword, at least one whitespace character and a nonempty rest of line
(group 1), whose stripped text is then unquoted.  Greedy backtracking makes
group(1).strip() equal to the strip of everything after the keyword. -/
def attrString (kw : List Char) (line : List Char) : Option String :=
  let l := line.dropWhile pyIsSpace
  if kw.isPrefixOf l then
    match l.drop kw.length with
    | c :: d :: rest =>
      if pyIsSpace c then some (String.mk (unquote (pyStripL (c :: d :: rest))))
      else none
    | _ => none
  else none

/-- Reading of the regex group "-?" followed by one-or-more digits at the
start of t, as a Python int. -/
def parseSignedInt (t : List Char) : Option Int :=
  match t with
  | '-' :: rest =>
    let ds := rest.takeWhile isDigitC
    if ds = [] then none else some (-(digitsValFrom 0 ds : Int))
  | c :: _ =>
    if isDigitC c then some (digitsValFrom 0 (t.takeWhile isDigitC) : Int)
    else none
  | [] => none

/-- Integer attribute line (first / last): optional indentation, the keyword,
at least one whitespace character, then an optionally signed digit run;
trailing text is ignored by the regex. -/
def attrInt (kw : List Char) (line : List Char) : Option Int :=
  let l := line.dropWhile pyIsSpace
  if kw.isPrefixOf l then
    match l.drop kw.length with
    | c :: rest =>
      if pyIsSpace c then parseSignedInt (rest.dropWhile pyIsSpace) else none
    | [] => none
  else none

/-- The four attribute matches applied to one line inside a block (lines
85-105); each match overwrites the corresponding field. -/
def applyAttrs (e : ReadEntry) (line : List Char) : ReadEntry :=
  let e := match attrString "name".data line with
    | some v => { e with name := some v }
    | none => e
  let e := match attrString "file".data line with
    | some v => { e with file := some v }
    | none => e
  let e := match attrInt "first".data line with
    | some n => { e with first := some n }
    | none => e
  match attrInt "last".data line with
  | some n => { e with last := some n }
  | none => e

/-- Net brace count of a line (line 83). -/
def braceDelta (line : List Char) : Int :=
  (line.count '{' : Int) - (line.count '}' : Int)

/-- Parser state: emitted records, the block being read, its brace depth. -/
structure ParseState where
  reads : List ReadEntry
  current : Option ReadEntry
  depth : Int
deriving DecidableEq

/-- Initial depth of a block (lines 78-80): the net brace count of the start
line, forced to 1 when that is zero or negative. -/
def initDepth (line : List Char) : Int :=
  let d := braceDelta line
  if d ≤ 0 then 1 else d

/-- One loop iteration of parse_nk_for_reads (lines 72-109): outside a block
only a node-start line matters (its own attribute text is skipped by the
continue); inside a block the depth is updated, the attribute matches are
applied — including on the very line that closes the block — and the record
is emitted once depth reaches zero or less. -/
def parseLine (st : ParseState) (line : List Char) : ParseState :=
  match st.current with
  | none =>
    match nodeStart line with
    | some t => { st with current := some { node_type := t }, depth := initDepth line }
    | none => st
  | some e =>
    let d := st.depth + braceDelta line
    let e := applyAttrs e line
    if d ≤ 0 then { reads := st.reads ++ [e], current := none, depth := d }
    else { st with current := some e, depth := d }

/-- parse_nk_for_reads over the lines of the document.  A trailing
unterminated block is dropped (only emitted records are returned). -/
def parse_nk_for_reads (lines : List String) : List ReadEntry :=
  (lines.foldl (fun st l => parseLine st l.data) ⟨[], none, 0⟩).reads

/-!
Embedding of build_dst_path, copy_worker and the tallying part of main
(lines 117-121, 172-191 and 235-296).  The file system is an oracle: an
existence predicate plus the possible failure detail of the makedirs and
copy2 calls.  A worker reports its attempted mutations as an explicit list
of operations, so that the dry-run frame property is statable; the makedirs
and copy2 entries record attempts (a failing call may still have partially
mutated the file system, which is why the failing operation is listed
too). -/

/-- Path separators recognised on the target platform. -/
def isSep (c : Char) : Bool := c = '/' ∨ c = '\\'

/-- The target drive of the CONFIG block (line 20). -/
def TARGET_DRIVE : String := "D:/"

/-- os.path.splitdrive for a drive-letter path: the leading "X:" designator
and the remainder.  (UNC designators are not modelled; no claim inspects
destination strings beyond their determinism.) -/
def splitdrive (s : String) : String × String :=
  match s.data with
  | a :: ':' :: rest => (String.mk [a, ':'], String.mk rest)
  | l => ("", String.mk l)

/-- build_dst_path (lines 117-121): drop the source drive, strip leading
separators, and attach the remainder to TARGET_DRIVE (os.path.join with a
root ending in a separator concatenates). -/
def build_dst_path (src : String) : String :=
  let rest := (splitdrive src).2
  TARGET_DRIVE ++ String.mk (rest.data.dropWhile isSep)

/-- Text before the last path separator: os.path.dirname up to the drive
root (where ntpath keeps a trailing separator that this approximation
drops; the dirname value is only ever an oracle argument here). -/
def pyDirname (s : String) : String :=
  match s.data.reverse.dropWhile (fun c => ¬ isSep c) with
  | [] => ""
  | _ :: pre => String.mk pre.reverse

/-- Status tags returned by copy_worker (line 176). -/
inductive Status
  | ok
  | missing
  | error
  | dry_run
deriving DecidableEq

/-- The tuple (status, src, dst, error_msg) a worker returns. -/
structure Outcome where
  status : Status
  src : String
  dst : Option String
  err : Option String
deriving DecidableEq

/-- A file-system mutation attempted by a worker. -/
inductive FsOp
  | makedirs (dir : String)
  | copy2 (src dst : String)
deriving DecidableEq

/-- File-system oracle: existence of a path, and the failure detail (if any)
of os.makedirs with exist_ok set, and of shutil.copy2. -/
structure FS where
  pathExists : String → Bool
  makedirsErr : String → Option String
  copy2Err : String → String → Option String

/-- copy_worker (lines 172-191): a missing source short-circuits with the
fixed detail string "source not found"; in dry-run mode the copy is only
simulated and nothing is attempted on the file system; otherwise the
destination directories are created and the file is copied, any exception
becoming an error outcome with its detail. -/
def copy_worker (fs : FS) (dryRun : Bool) (src : String) : Outcome × List FsOp :=
  if ¬ fs.pathExists src then
    (⟨.missing, src, none, some "source not found"⟩, [])
  else
    let dst := build_dst_path src
    if dryRun then (⟨.dry_run, src, some dst, none⟩, [])
    else
      match fs.makedirsErr (pyDirname dst) with
      | some msg => (⟨.error, src, some dst, some msg⟩, [.makedirs (pyDirname dst)])
      | none =>
        match fs.copy2Err src dst with
        | some msg =>
          (⟨.error, src, some dst, some msg⟩,
            [.makedirs (pyDirname dst), .copy2 src dst])
        | none =>
          (⟨.ok, src, some dst, none⟩, [.makedirs (pyDirname dst), .copy2 src dst])

/-- The four result lists main accumulates (lines 249-252). -/
structure Report where
  success : List String
  missing : List String
  errors : List String
  dryrun : List String
deriving DecidableEq

/-- Routing of one outcome into the four lists (lines 276-287). -/
def tallyStep (rep : Report) (o : Outcome) : Report :=
  match o.status with
  | .ok => { rep with success := rep.success ++ [o.src] }
  | .dry_run => { rep with dryrun := rep.dryrun ++ [o.src] }
  | .missing => { rep with missing := rep.missing ++ [o.src] }
  | .error => { rep with errors := rep.errors ++ [o.src] }

/-- Tally of a list of outcomes.  In the source the outcomes arrive in the
nondeterministic completion order of the thread pool; every property proved
below about a tally (counts and membership) is order-independent, and the
model tallies in submission order. -/
def tally (outs : List Outcome) : Report :=
  outs.foldl tallyStep ⟨[], [], [], []⟩

/-- Lexicographic comparison of character lists by code point, the order
Python uses to compare strings (a proper prefix sorts first). -/
def lexLe : List Char → List Char → Bool
  | [], _ => true
  | _ :: _, [] => false
  | a :: as, b :: bs => if a < b then true else if a = b then lexLe as bs else false

/-- Python string comparison s1 <= s2. -/
def strLe (a b : String) : Bool := lexLe a.data b.data

/-- Insertion of an element into a sorted list. -/
def orderedInsertB (a : String) : List String → List String
  | [] => [a]
  | b :: l => if strLe a b then a :: b :: l else b :: orderedInsertB a l

/-- Insertion sort by Python string comparison.  The elements to be sorted
are distinct (they come from a set), so the ascending arrangement sorted()
produces is unique and any correct ascending sort models it. -/
def insertionSortB : List String → List String
  | [] => []
  | a :: l => orderedInsertB a (insertionSortB l)

/-- The deduplicated work list of main (line 243): sorted(set(all_sources)).
Python sorts strings ascending by code point. -/
def uniqueSources (srcs : List String) : List String :=
  insertionSortB srcs.dedup

/-- Expansion of every parsed record, stopping at the first propagating
exception, as the extend loop of main does (lines 235-237). -/
def expandAll (rs : List ReadEntry) : Except PyErr (List (List String)) :=
  rs.mapM expand_read_to_files

/-- The pipeline of main after configuration (lines 231-296): parse, expand
each record, return early with no report when nothing was found (line 239),
otherwise deduplicate, run copy_worker per unique source and tally.  A
propagating expansion exception aborts the run. -/
def runMain (fs : FS) (dryRun : Bool) (lines : List String) :
    Except PyErr (Option Report) := do
  let reads := parse_nk_for_reads lines
  let lists ← expandAll reads
  let allSources := lists.flatten
  if allSources = [] then
    return none
  else
    let us := uniqueSources allSources
    let outs := us.map fun s => (copy_worker fs dryRun s).1
    return some (tally outs)

/-- The placeholder text "%0kd" as a character list. -/
def hashFmtChars (k : Nat) : List Char := '%' :: '0' :: (natDigits k ++ ['d'])

/-- Shape of a string produced by str.replace of a hash run with the "%0kd"
placeholder: percent-free segments separated by copies of the placeholder. -/
inductive PctSegs (k : Nat) : List Char → Prop
  | last (s : List Char) : hasChar '%' s = false → PctSegs k s
  | cons (s rest : List Char) : hasChar '%' s = false → PctSegs k rest →
      PctSegs k (s ++ (hashFmtChars k ++ rest))

/-- Running brace depth after processing a list of lines from depth d. -/
def depthAfter (d : Int) (ls : List (List Char)) : Int :=
  ls.foldl (fun acc l => acc + braceDelta l) d

/-- File-system oracle on which nothing exists and nothing fails: the
state of the concrete end-to-end scenario. -/
def fsNone : FS := ⟨fun _ => false, fun _ => none, fun _ _ => none⟩

/-- The scene text of the concrete end-to-end scenario: one Read block with
a hash-padded file pattern and the frame range 1..3. -/
def sceneLines : List String :=
  ["Read \x7b", " file \"img.####.exr\"", " first 1", " last 3", "\x7d"]

/-- Projection of a completed run onto its report (empty report when the
run aborted or found nothing); used to state count properties. -/
def reportOf (r : Except PyErr (Option Report)) : Report :=
  match r with
  | .ok (some rep) => rep
  | _ => ⟨[], [], [], []⟩

/-!
Auxiliary lemmas.
-/

theorem natDigitsAux_congr :
    ∀ {f1 : Nat} {n : Nat}, n ≤ f1 → ∀ {f2 : Nat}, n ≤ f2 →
      natDigitsAux f1 n = natDigitsAux f2 n := by
  intro f1
  induction f1 with
  | zero =>
    intro n h f2 _
    have : n = 0 := by omega
    subst this
    cases f2 with
    | zero => rfl
    | succ g => simp [natDigitsAux]
  | succ f ih =>
    intro n h f2 h2
    by_cases hn : n < 10
    · cases f2 with
      | zero =>
        have : n = 0 := by omega
        subst this
        simp [natDigitsAux]
      | succ g => simp [natDigitsAux, hn]
    · have hdiv : n / 10 < n := Nat.div_lt_self (by omega) (by omega)
      obtain ⟨f2', rfl⟩ : ∃ g, f2 = g + 1 := ⟨f2 - 1, by omega⟩
      show natDigitsAux (f + 1) n = natDigitsAux (f2' + 1) n
      simp only [natDigitsAux, if_neg hn]
      have := @ih (n / 10) (by omega) f2' (by omega)
      rw [this]

/-- The recursive unfolding of natDigits. -/
theorem natDigits_eq (n : Nat) :
    natDigits n = if n < 10 then [digitChar n]
      else natDigits (n / 10) ++ [digitChar (n % 10)] := by
  by_cases hn : n < 10
  · rw [if_pos hn]
    cases n with
    | zero => rfl
    | succ m => simp only [natDigits, natDigitsAux, if_pos hn]
  · rw [if_neg hn]
    obtain ⟨m, rfl⟩ : ∃ m, n = m + 1 := ⟨n - 1, by omega⟩
    have hdiv : (m + 1) / 10 < m + 1 := Nat.div_lt_self (by omega) (by omega)
    show natDigitsAux (m + 1) (m + 1) = _
    simp only [natDigitsAux, if_neg hn]
    unfold natDigits
    congr 1
    exact natDigitsAux_congr (by omega) (by omega)


theorem hasChar_iff_mem {c : Char} {l : List Char} : hasChar c l = true ↔ c ∈ l := by
  simp [hasChar]

theorem hasChar_eq_false {c : Char} {l : List Char} : hasChar c l = false ↔ c ∉ l := by
  rw [← Bool.not_eq_true, not_iff_not]
  exact hasChar_iff_mem

theorem mem_of_mem_dropWhile {p : Char → Bool} {c : Char} {l : List Char} :
    c ∈ l.dropWhile p → c ∈ l := by
  induction l with
  | nil => simp
  | cons a t ih =>
    intro h
    rw [List.dropWhile_cons] at h
    by_cases hp : p a = true
    · simp only [hp, if_true] at h
      exact List.mem_cons_of_mem a (ih h)
    · simp only [hp, if_false] at h
      exact h

theorem mem_of_mem_pyStripL {c : Char} {l : List Char} :
    c ∈ pyStripL l → c ∈ l := by
  intro h
  unfold pyStripL at h
  rw [List.mem_reverse] at h
  have h2 := mem_of_mem_dropWhile h
  rw [List.mem_reverse] at h2
  exact mem_of_mem_dropWhile h2

theorem mem_dropWhile_of_mem {p : Char → Bool} {c : Char} {l : List Char}
    (hc : p c = false) (h : c ∈ l) : c ∈ l.dropWhile p := by
  induction l with
  | nil => simp at h
  | cons a t ih =>
    rw [List.dropWhile_cons]
    by_cases hp : p a = true
    · simp only [hp, if_true]
      rcases List.mem_cons.mp h with rfl | h
      · rw [hp] at hc; cases hc
      · exact ih h
    · simp only [hp, if_false]
      exact h

theorem mem_pyStripL_of_mem {c : Char} {l : List Char}
    (hc : pyIsSpace c = false) (h : c ∈ l) : c ∈ pyStripL l := by
  unfold pyStripL
  rw [List.mem_reverse]
  refine mem_dropWhile_of_mem hc ?_
  rw [List.mem_reverse]
  exact mem_dropWhile_of_mem hc h

theorem isDigitC_digitChar {m : Nat} (h : m < 10) : isDigitC (digitChar m) = true := by
  interval_cases m <;> decide

theorem digitChar_ne_zero {m : Nat} (h1 : 1 ≤ m) (h2 : m < 10) : digitChar m ≠ '0' := by
  interval_cases m <;> decide

theorem digitVal_digitChar {m : Nat} (h : m < 10) : digitVal (digitChar m) = m := by
  interval_cases m <;> decide

theorem natDigits_all {n : Nat} : ∀ c ∈ natDigits n, isDigitC c = true := by
  induction n using Nat.strong_induction_on with
  | _ n ih =>
    rw [natDigits_eq]
    split
    · intro c hc
      rw [List.mem_singleton] at hc
      subst hc
      exact isDigitC_digitChar (by omega)
    · intro c hc
      rcases List.mem_append.mp hc with hc | hc
      · exact ih (n / 10) (Nat.div_lt_self (by omega) (by omega)) c hc
      · rw [List.mem_singleton] at hc
        subst hc
        exact isDigitC_digitChar (Nat.mod_lt _ (by omega))

theorem digitsValFrom_natDigits {n : Nat} :
    ∀ a, digitsValFrom a (natDigits n) = a * 10 ^ (natDigits n).length + n := by
  induction n using Nat.strong_induction_on with
  | _ n ih =>
    intro a
    rw [natDigits_eq]
    split
    · next h =>
      simp [digitsValFrom, digitVal_digitChar h]
      ring
    · next h =>
      have hd : n / 10 < n := Nat.div_lt_self (by omega) (by omega)
      simp only [digitsValFrom, List.foldl_append, List.foldl_cons, List.foldl_nil,
        List.length_append, List.length_cons, List.length_nil]
      have hih := ih (n / 10) hd a
      simp only [digitsValFrom] at hih
      rw [hih, digitVal_digitChar (Nat.mod_lt _ (by omega)), pow_succ]
      calc 10 * (a * 10 ^ (natDigits (n / 10)).length + n / 10) + n % 10
          = a * (10 ^ (natDigits (n / 10)).length * 10) + (10 * (n / 10) + n % 10) := by
            ring
        _ = a * (10 ^ (natDigits (n / 10)).length * 10) + n := by
            rw [Nat.div_add_mod]

theorem natDigits_head {n : Nat} (h : 1 ≤ n) :
    ∃ d ds, natDigits n = d :: ds ∧ isDigitC d = true ∧ d ≠ '0' ∧
      ∀ c ∈ ds, isDigitC c = true := by
  induction n using Nat.strong_induction_on with
  | _ n ih =>
    rw [natDigits_eq]
    split
    · next hlt =>
      exact ⟨digitChar n, [], rfl, isDigitC_digitChar hlt, digitChar_ne_zero h hlt, by simp⟩
    · next hlt =>
      have hd : n / 10 < n := Nat.div_lt_self (by omega) (by omega)
      have h1 : 1 ≤ n / 10 := Nat.le_div_iff_mul_le (by omega) |>.mpr (by omega)
      obtain ⟨d, ds, heq, hdig, hnz, hall⟩ := ih (n / 10) hd h1
      refine ⟨d, ds ++ [digitChar (n % 10)], by rw [heq]; simp, hdig, hnz, ?_⟩
      intro c hc
      rcases List.mem_append.mp hc with hc | hc
      · exact hall c hc
      · rw [List.mem_singleton] at hc
        subst hc
        exact isDigitC_digitChar (Nat.mod_lt _ (by omega))

theorem hasChar_cons {c a : Char} {l : List Char} :
    hasChar c (a :: l) = ((a = c) || hasChar c l) := by
  simp [hasChar]

theorem isDigitC_ne {c x : Char} (h : isDigitC c = true) (hx : isDigitC x = false) :
    c ≠ x := by
  intro he
  rw [he, hx] at h
  cases h

theorem pfRun_copy_append {s : List Char} (hs : hasChar '%' s = false)
    (t : List Char) (arg : Int) (co : Bool) :
    pfRun (s ++ t) .copy arg co = (pfRun t .copy arg co).map fun p => (s ++ p.1, p.2) := by
  induction s with
  | nil =>
    cases h : pfRun t .copy arg co <;> simp [h, Except.map]
  | cons c s' ih =>
    rw [hasChar_cons, Bool.or_eq_false_iff] at hs
    have hc : c ≠ '%' := fun he => by simp [he] at hs
    rw [List.cons_append, pfRun]
    rw [if_neg hc, ih hs.2]
    cases h : pfRun t .copy arg co <;> simp [h, Except.map]

theorem pfRun_copy_noPct {s : List Char} (hs : hasChar '%' s = false)
    (arg : Int) (co : Bool) : pfRun s .copy arg co = .ok (s, co) := by
  have := pfRun_copy_append hs [] arg co
  rw [List.append_nil] at this
  rw [this, pfRun]
  simp [Except.map]

theorem pfRun_width_digits {ds : List Char} (h : ∀ c ∈ ds, isDigitC c = true)
    (rest : List Char) (sp : FSpec) (acc : Nat) (arg : Int) (co : Bool) :
    pfRun (ds ++ rest) (.width sp acc) arg co =
      pfRun rest (.width sp (digitsValFrom acc ds)) arg co := by
  induction ds generalizing acc with
  | nil => simp [digitsValFrom]
  | cons d ds' ih =>
    have hd : isDigitC d = true := h d (List.mem_cons_self d ds')
    rw [List.cons_append, pfRun.eq_def]
    dsimp only
    rw [if_pos hd, ih (fun c hc => h c (List.mem_cons_of_mem d hc))]
    rfl

theorem fmtDec_zeroPad (k : Nat) (arg : Int) :
    fmtDec ⟨false, false, false, false, true, k, none⟩ arg = zeroPad k arg := by
  unfold fmtDec fmtIntCore zeroPad
  by_cases h : arg < 0
  · simp only [h, if_pos, if_true, if_false, List.length_append, List.length_cons,
      List.length_nil, List.nil_append, List.cons_append, List.append_assoc]
    simp [Nat.add_comm]
  · simp [h, List.length_append]

theorem fmtDec_default (i : Int) (h : ¬ i < 0) : fmtDec {} i = natDigits i.natAbs := by
  unfold fmtDec fmtIntCore
  simp [h, spaces]

theorem pfRun_fmt {k : Nat} (hk : 1 ≤ k) (suf : List Char) (arg : Int) (co : Bool) :
    pfRun (hashFmtChars k ++ suf) .copy arg co =
      if co then .error .typeError
      else (pfRun suf .copy arg true).map fun p => (zeroPad k arg ++ p.1, p.2) := by
  obtain ⟨d, ds, heq, hdig, hnz, hall⟩ := natDigits_head hk
  have hne : ∀ x : Char, isDigitC x = false → ¬ d = x := fun x hx => isDigitC_ne hdig hx
  have hshape : hashFmtChars k ++ suf = '%' :: '0' :: (natDigits k ++ ('d' :: suf)) := by
    simp [hashFmtChars]
  rw [hshape]
  show pfRun ('0' :: (natDigits k ++ 'd' :: suf)) .start0 arg co = _
  show pfRun (natDigits k ++ 'd' :: suf) (.flags { zero := true }) arg co = _
  rw [heq, List.cons_append, pfRun.eq_def]
  dsimp only
  rw [if_neg (hne '-' (by decide)), if_neg (hne '+' (by decide)),
    if_neg (hne ' ' (by decide)), if_neg (hne '#' (by decide)), if_neg hnz,
    if_pos hdig, pfRun_width_digits hall]
  have hval : digitsValFrom (digitVal d) ds = k := by
    have h0 := digitsValFrom_natDigits (n := k) 0
    rw [heq] at h0
    simpa [digitsValFrom] using h0
  rw [hval]
  cases co with
  | true =>
    show Except.error PyErr.typeError = _
    rfl
  | false =>
    show (pfRun suf .copy arg true).map
        (fun p => (fmtDec ⟨false, false, false, false, true, k, none⟩ arg ++ p.1, p.2)) = _
    rw [fmtDec_zeroPad]
    rfl

theorem percentFormat_shape {pre suf : List Char} {k : Nat}
    (hpre : hasChar '%' pre = false) (hsuf : hasChar '%' suf = false)
    (hk : 1 ≤ k) (arg : Int) :
    percentFormat (pre ++ hashFmtChars k ++ suf) arg =
      .ok (pre ++ zeroPad k arg ++ suf) := by
  unfold percentFormat
  rw [List.append_assoc, pfRun_copy_append hpre, pfRun_fmt hk, if_neg (by decide),
    pfRun_copy_noPct hsuf]
  simp [Except.map]

theorem hashFmt_eq (k : Nat) : hashFmt k = hashFmtChars k := by
  have hd2 : fmtDec {} (Int.ofNat k) = natDigits k := by
    rw [fmtDec_default (Int.ofNat k) (Int.not_lt.mpr (Int.ofNat_nonneg k))]
    simp
  show '%' :: '0' :: (fmtDec {} (Int.ofNat k) ++ ['d']) = hashFmtChars k
  rw [hd2]
  rfl

theorem replaceAllAux_congr {pat rep : List Char} :
    ∀ {f1 : Nat} {s : List Char}, s.length ≤ f1 → ∀ {f2 : Nat}, s.length ≤ f2 →
      replaceAllAux pat rep f1 s = replaceAllAux pat rep f2 s := by
  intro f1
  induction f1 with
  | zero =>
    intro s h f2 _
    have : s = [] := List.length_eq_zero.mp (by omega)
    subst this
    cases f2 with
    | zero => rfl
    | succ g => rfl
  | succ f ih =>
    intro s h f2 h2
    cases s with
    | nil =>
      cases f2 with
      | zero => rfl
      | succ g => rfl
    | cons c rest =>
      obtain ⟨f2', rfl⟩ : ∃ g, f2 = g + 1 := ⟨f2 - 1, by simp at h2; omega⟩
      show replaceAllAux pat rep (f + 1) (c :: rest) = replaceAllAux pat rep (f2' + 1) (c :: rest)
      simp only [replaceAllAux]
      simp only [List.length_cons] at h h2
      by_cases hc : pat ≠ [] ∧ pat.isPrefixOf (c :: rest)
      · rw [if_pos hc, if_pos hc]
        have hp : 1 ≤ pat.length := List.length_pos.mpr hc.1
        have hlen : ((c :: rest).drop pat.length).length ≤ f := by
          simp [List.length_drop]
          omega
        have hlen2 : ((c :: rest).drop pat.length).length ≤ f2' := by
          simp [List.length_drop]
          omega
        rw [ih hlen hlen2]
      · rw [if_neg hc, if_neg hc]
        have := @ih rest (by omega) f2' (by omega)
        rw [this]

/-- The recursive unfolding of replaceAll on a nonempty string. -/
theorem replaceAll_cons (c : Char) (rest pat rep : List Char) :
    replaceAll (c :: rest) pat rep =
      if pat ≠ [] ∧ pat.isPrefixOf (c :: rest) then
        rep ++ replaceAll ((c :: rest).drop pat.length) pat rep
      else c :: replaceAll rest pat rep := by
  show replaceAllAux pat rep (rest.length + 1) (c :: rest) = _
  simp only [replaceAllAux]
  by_cases hc : pat ≠ [] ∧ pat.isPrefixOf (c :: rest)
  · rw [if_pos hc, if_pos hc]
    have hp : 1 ≤ pat.length := List.length_pos.mpr hc.1
    unfold replaceAll
    congr 1
    apply replaceAllAux_congr
    · simp [List.length_drop]
      omega
    · exact Nat.le_refl _
  · rw [if_neg hc, if_neg hc]
    rfl

theorem replicate_hash_not_prefix {c : Char} {rest : List Char} (hc : ¬ c = '#')
    {k : Nat} (hk : 1 ≤ k) :
    ¬ (List.replicate k '#').isPrefixOf (c :: rest) = true := by
  intro hpre
  rw [List.isPrefixOf_iff_prefix] at hpre
  obtain ⟨j, rfl⟩ : ∃ j, k = j + 1 := ⟨k - 1, by omega⟩
  rw [List.replicate_succ] at hpre
  exact hc ((List.cons_prefix_cons.mp hpre).1.symm)

theorem replaceAll_no_hash {l : List Char} (hl : hasChar '#' l = false)
    {k : Nat} (hk : 1 ≤ k) (rep : List Char) :
    replaceAll l (List.replicate k '#') rep = l := by
  induction l with
  | nil => rfl
  | cons c rest ih =>
    rw [hasChar_cons, Bool.or_eq_false_iff] at hl
    have hc : ¬ c = '#' := fun he => by simp [he] at hl
    rw [replaceAll_cons]
    rw [if_neg (fun hand : _ ∧ _ => replicate_hash_not_prefix hc hk hand.2)]
    rw [ih hl.2]

theorem replaceAll_single {pre suf : List Char} (hpre : hasChar '#' pre = false)
    (hsuf : hasChar '#' suf = false) {k : Nat} (hk : 1 ≤ k) (rep : List Char) :
    replaceAll (pre ++ (List.replicate k '#' ++ suf)) (List.replicate k '#') rep =
      pre ++ (rep ++ suf) := by
  induction pre with
  | nil =>
    simp only [List.nil_append]
    obtain ⟨j, rfl⟩ : ∃ j, k = j + 1 := ⟨k - 1, by omega⟩
    rw [show List.replicate (j + 1) '#' ++ suf =
      '#' :: (List.replicate j '#' ++ suf) from by rw [List.replicate_succ]; rfl]
    rw [replaceAll_cons]
    have hpre2 : (List.replicate (j + 1) '#').isPrefixOf
        ('#' :: (List.replicate j '#' ++ suf)) = true := by
      rw [List.isPrefixOf_iff_prefix, List.replicate_succ]
      exact ⟨suf, by simp⟩
    rw [if_pos ⟨by simp, hpre2⟩]
    have hdrop : ('#' :: (List.replicate j '#' ++ suf)).drop
        (List.replicate (j + 1) '#').length = suf := by
      rw [show ('#' :: (List.replicate j '#' ++ suf)) =
        (List.replicate (j + 1) '#') ++ suf from by rw [List.replicate_succ]; rfl]
      exact List.drop_left _ _
    rw [hdrop, replaceAll_no_hash hsuf hk]
  | cons c pre' ih =>
    rw [hasChar_cons, Bool.or_eq_false_iff] at hpre
    have hc : ¬ c = '#' := fun he => by simp [he] at hpre
    rw [List.cons_append, replaceAll_cons]
    rw [if_neg (fun hand : _ ∧ _ => replicate_hash_not_prefix hc hk hand.2)]
    rw [ih hpre.2]
    rfl

theorem takeWhile_hash_replicate (j : Nat) {suf : List Char}
    (hsuf : hasChar '#' suf = false) :
    (List.replicate j '#' ++ suf).takeWhile (fun x => x = '#') =
      List.replicate j '#' := by
  induction j with
  | zero =>
    simp only [List.replicate, List.nil_append]
    cases suf with
    | nil => rfl
    | cons s rest =>
      rw [hasChar_cons, Bool.or_eq_false_iff] at hsuf
      have hs : ¬ s = '#' := fun he => by simp [he] at hsuf
      rw [List.takeWhile_cons]
      simp [hs]
  | succ j' ih =>
    rw [List.replicate_succ, List.cons_append, List.takeWhile_cons]
    simp only [decide_True, if_true]
    rw [ih]

theorem firstHashRun_of_shape {pre suf : List Char} (hpre : hasChar '#' pre = false)
    {k : Nat} (hk : 1 ≤ k) (hsuf : hasChar '#' suf = false) :
    firstHashRun (pre ++ (List.replicate k '#' ++ suf)) =
      some (List.replicate k '#') := by
  induction pre with
  | nil =>
    simp only [List.nil_append]
    obtain ⟨j, rfl⟩ : ∃ j, k = j + 1 := ⟨k - 1, by omega⟩
    rw [show List.replicate (j + 1) '#' ++ suf =
      '#' :: (List.replicate j '#' ++ suf) from by rw [List.replicate_succ]; rfl]
    rw [firstHashRun, if_pos rfl, takeWhile_hash_replicate j hsuf]
    rw [show ('#' :: List.replicate j '#' : List Char) =
      List.replicate (j + 1) '#' from by rw [List.replicate_succ]]
  | cons c pre' ih =>
    rw [hasChar_cons, Bool.or_eq_false_iff] at hpre
    have hc : ¬ c = '#' := fun he => by simp [he] at hpre
    rw [List.cons_append, firstHashRun, if_neg hc]
    exact ih hpre.2

theorem firstHashRun_spec {l run : List Char} (h : firstHashRun l = some run) :
    ∃ pre suf, l = pre ++ (run ++ suf) ∧ hasChar '#' pre = false ∧
      run = List.replicate run.length '#' ∧ 1 ≤ run.length := by
  induction l with
  | nil => cases h
  | cons c rest ih =>
    rw [firstHashRun] at h
    by_cases hc : c = '#'
    · rw [if_pos hc] at h
      subst hc
      obtain rfl : '#' :: rest.takeWhile (fun x => x = '#') = run := by
        injection h
      refine ⟨[], rest.dropWhile (fun x => x = '#'), ?_, rfl, ?_, by simp⟩
      · simp [List.takeWhile_append_dropWhile]
      · rw [List.eq_replicate_iff]
        refine ⟨rfl, ?_⟩
        intro b hb
        rcases List.mem_cons.mp hb with rfl | hb
        · rfl
        · have := List.mem_takeWhile_imp hb
          simpa using this
    · rw [if_neg hc] at h
      obtain ⟨pre, suf, heq, hpre, hrun, hlen⟩ := ih h
      refine ⟨c :: pre, suf, by rw [heq]; rfl, ?_, hrun, hlen⟩
      rw [hasChar_cons, hpre, Bool.or_false]
      simp [hc]

theorem hasChar_append {c : Char} {a b : List Char} :
    hasChar c (a ++ b) = (hasChar c a || hasChar c b) := by
  simp [hasChar, List.any_append]

theorem PctSegs.cons_char {k : Nat} {c : Char} {l : List Char}
    (hc : ¬ c = '%') (h : PctSegs k l) : PctSegs k (c :: l) := by
  cases h with
  | last _ ht =>
    refine PctSegs.last (c :: l) ?_
    rw [hasChar_cons, ht, Bool.or_false]
    simp [hc]
  | cons t rest ht hr =>
    have he : c :: (t ++ (hashFmtChars k ++ rest)) = (c :: t) ++ (hashFmtChars k ++ rest) := rfl
    rw [he]
    refine PctSegs.cons (c :: t) rest ?_ hr
    rw [hasChar_cons, ht, Bool.or_false]
    simp [hc]

theorem replaceAll_pctSegs_aux (n : Nat) :
    ∀ (l : List Char), l.length ≤ n → hasChar '%' l = false → ∀ {k : Nat}, 1 ≤ k →
      PctSegs k (replaceAll l (List.replicate k '#') (hashFmtChars k)) := by
  induction n with
  | zero =>
    intro l h hl k hk
    have : l = [] := List.length_eq_zero.mp (by omega)
    subst this
    exact PctSegs.last [] rfl
  | succ n ih =>
    intro l h hl k hk
    cases l with
    | nil => exact PctSegs.last [] rfl
    | cons c rest =>
      rw [replaceAll_cons]
      rw [hasChar_cons, Bool.or_eq_false_iff] at hl
      have hc : ¬ c = '%' := fun he => by simp [he] at hl
      simp only [List.length_cons] at h
      by_cases hm : (List.replicate k '#' : List Char) ≠ [] ∧
          (List.replicate k '#').isPrefixOf (c :: rest)
      · rw [if_pos hm]
        have hplen : (List.replicate k '#' : List Char).length = k := List.length_replicate _ _
        have hd : ((c :: rest).drop (List.replicate k '#').length).length ≤ n := by
          simp [List.length_drop, hplen]
          omega
        have hdl : hasChar '%' ((c :: rest).drop (List.replicate k '#').length) = false := by
          rw [hasChar_eq_false]
          intro hmem
          have hmem' : '%' ∈ c :: rest := List.drop_subset _ _ hmem
          rcases List.mem_cons.mp hmem' with he | hmem2
          · exact hc he.symm
          · have hcontra : hasChar '%' rest = true := hasChar_iff_mem.mpr hmem2
            rw [hl.2] at hcontra
            cases hcontra
        have hseg := ih _ hd hdl hk
        exact PctSegs.cons [] _ rfl hseg
      · rw [if_neg hm]
        exact PctSegs.cons_char hc (ih rest (by omega) hl.2 hk)

theorem replaceAll_pctSegs {l : List Char} (hl : hasChar '%' l = false)
    {k : Nat} (hk : 1 ≤ k) :
    PctSegs k (replaceAll l (List.replicate k '#') (hashFmtChars k)) :=
  replaceAll_pctSegs_aux l.length l (Nat.le_refl _) hl hk

theorem pfRun_segs_consumed {k : Nat} {l : List Char} (h : PctSegs k l)
    (hk : 1 ≤ k) (arg : Int) :
    pfRun l .copy arg true =
      if hasChar '%' l = true then .error .typeError else .ok (l, true) := by
  cases h with
  | last _ hs =>
    rw [pfRun_copy_noPct hs, hs]
    rfl
  | cons s rest hs hr =>
    have hfmt : hasChar '%' (hashFmtChars k) = true := by
      rw [hasChar_iff_mem]
      exact List.mem_cons_self _ _
    have hall : hasChar '%' (s ++ (hashFmtChars k ++ rest)) = true := by
      rw [hasChar_append, hasChar_append, hfmt]
      simp
    rw [hall, if_pos rfl, pfRun_copy_append hs, pfRun_fmt hk, if_pos rfl]
    rfl

theorem pctSegs_classify {k : Nat} {l : List Char} (h : PctSegs k l) (hk : 1 ≤ k) :
    hasChar '%' l = false ∨
    (∀ arg, percentFormat l arg = .error .typeError) ∨
    (∃ pre suf, hasChar '%' pre = false ∧ hasChar '%' suf = false ∧
      ∀ arg, percentFormat l arg = .ok (pre ++ zeroPad k arg ++ suf)) := by
  cases h with
  | last _ hs => exact Or.inl hs
  | cons s rest hs hr =>
    right
    by_cases hrest : hasChar '%' rest = true
    · left
      intro arg
      unfold percentFormat
      rw [pfRun_copy_append hs, pfRun_fmt hk, if_neg (by decide),
        pfRun_segs_consumed hr hk, if_pos hrest]
      rfl
    · right
      refine ⟨s, rest, hs, Bool.not_eq_true _ ▸ hrest, ?_⟩
      intro arg
      unfold percentFormat
      rw [pfRun_copy_append hs, pfRun_fmt hk, if_neg (by decide),
        pfRun_segs_consumed hr hk, if_neg hrest]
      show Except.ok (s ++ (zeroPad k arg ++ rest)) = Except.ok (s ++ zeroPad k arg ++ rest)
      rw [List.append_assoc]

theorem substLoop_ok {path : List Char} {g : Int → List Char}
    (h : ∀ a, percentFormat path a = .ok (g a)) (fs : List Int) :
    substLoop path fs = .ok (fs.map g) := by
  induction fs with
  | nil => rfl
  | cons f rest ih =>
    rw [substLoop, h f, ih]
    rfl

theorem substLoop_typeError {path : List Char} {f : Int} (rest : List Int)
    (h : percentFormat path f = .error .typeError) :
    substLoop path (f :: rest) = .ok [path] := by
  rw [substLoop, h]

theorem substLoop_isOk {k : Nat} {path : List Char} (h : PctSegs k path)
    (hk : 1 ≤ k) (fs : List Int) (hp : hasChar '%' path = true) :
    (substLoop path fs).isOk = true := by
  rcases pctSegs_classify h hk with hc | hc | ⟨pre, suf, _, _, hc⟩
  · rw [hc] at hp
    cases hp
  · cases fs with
    | nil => rfl
    | cons f rest =>
      rw [substLoop_typeError rest (hc f)]
      rfl
  · rw [substLoop_ok hc]
    rfl

theorem rangeList_nil {first last : Int} (h : last < first) :
    rangeList first last = [] := by
  unfold rangeList
  have : (last + 1 - first).toNat = 0 := by omega
  rw [this]
  rfl

theorem rangeList_cons {first last : Int} (h : first ≤ last) :
    rangeList first last = first :: rangeList (first + 1) last := by
  unfold rangeList
  have h1 : (last + 1 - first).toNat = (last + 1 - (first + 1)).toNat + 1 := by omega
  rw [h1, List.range_succ_eq_map]
  simp only [List.map_cons, List.map_map]
  congr 1
  · simp
  · refine List.map_congr_left fun m _ => ?_
    simp only [Function.comp_apply]
    show first + Int.ofNat (m + 1) = first + 1 + Int.ofNat m
    simp only [Int.ofNat_eq_natCast, Nat.cast_add, Nat.cast_one]
    ring

theorem firstHashRun_some {p : List Char} (h : hasChar '#' p = true) :
    ∃ run, firstHashRun p = some run := by
  induction p with
  | nil => cases h
  | cons c rest ih =>
    rw [firstHashRun]
    by_cases hc : c = '#'
    · rw [if_pos hc]
      exact ⟨_, rfl⟩
    · rw [if_neg hc]
      rw [hasChar_cons] at h
      refine ih ?_
      rcases Bool.or_eq_true_iff.mp h with he | he
      · exact absurd (of_decide_eq_true he) hc
      · exact he

theorem hashRewrite_pctSegs {p : List Char} (hp : hasChar '%' p = false)
    (hh : hasChar '#' p = true) :
    ∃ k, 1 ≤ k ∧ PctSegs k (hashRewrite p) := by
  obtain ⟨run, hrun⟩ := firstHashRun_some hh
  obtain ⟨pre, suf, hdec, hpre, hshape, hlen⟩ := firstHashRun_spec hrun
  refine ⟨run.length, hlen, ?_⟩
  unfold hashRewrite
  rw [hrun]
  show PctSegs run.length (replaceAll p run (hashFmt run.length))
  rw [hashFmt_eq]
  have hrw : replaceAll p run (hashFmtChars run.length) =
      replaceAll p (List.replicate run.length '#') (hashFmtChars run.length) := by
    conv_lhs => rw [hshape]
    rw [List.length_replicate]
  rw [hrw]
  exact replaceAll_pctSegs hp hlen

theorem expandCore_noPct_isOk {p : List Char} (hp : hasChar '%' p = false)
    (f? l? : Option Int) :
    (expandCore p f? l?).isOk = true := by
  unfold expandCore
  by_cases h0 : p = []
  · rw [if_pos h0]
    rfl
  · rw [if_neg h0]
    by_cases hbr : hasChar '[' p = true ∧ hasChar ']' p = true
    · rw [if_pos hbr]
      rfl
    · rw [if_neg hbr]
      by_cases hh : hasChar '#' p = true
      · rw [if_pos ⟨hh, by simp [hp]⟩]
        obtain ⟨k, hk, hseg⟩ := hashRewrite_pctSegs hp hh
        unfold expandTail
        by_cases hpct : hasChar '%' (hashRewrite p) = true
        · rw [if_pos hpct]
          exact substLoop_isOk hseg hk _ hpct
        · rw [if_neg hpct]
          rfl
      · rw [if_neg (fun hand : _ ∧ _ => hh hand.1)]
        unfold expandTail
        rw [if_neg (by simp [hp])]
        rfl

theorem expandCore_typeError {p : List Char} (f? l? : Option Int)
    (hpct : hasChar '%' p = true)
    (hbr : ¬ (hasChar '[' p = true ∧ hasChar ']' p = true))
    (herr : percentFormat p (f?.getD 1) = .error .typeError)
    (hle : f?.getD 1 ≤ l?.getD (f?.getD 1)) :
    expandCore p f? l? = .ok [p] := by
  have hne : p ≠ [] := by
    intro h0
    rw [h0] at hpct
    cases hpct
  unfold expandCore
  rw [if_neg hne, if_neg hbr, if_neg (by simp [hpct])]
  unfold expandTail
  rw [if_pos hpct, rangeList_cons hle, substLoop_typeError _ herr]

theorem findSome_app {α β : Type} (f : α → Option β) (l1 l2 : List α) :
    (l1 ++ l2).findSome? f =
      match l1.findSome? f with
      | some v => some v
      | none => l2.findSome? f := by
  induction l1 with
  | nil => rfl
  | cons a l1' ih =>
    rw [List.cons_append]
    cases h : f a with
    | some b => simp [List.findSome?_cons, h]
    | none => simp [List.findSome?_cons, h, ih]

theorem applyAttrs_name (e : ReadEntry) (line : List Char) :
    (applyAttrs e line).name =
      match attrString "name".data line with
      | some v => some v
      | none => e.name := by
  unfold applyAttrs
  cases h1 : attrString "name".data line <;> cases h2 : attrString "file".data line <;>
    cases h3 : attrInt "first".data line <;> cases h4 : attrInt "last".data line <;>
      simp [h1, h2, h3, h4]

theorem applyAttrs_file (e : ReadEntry) (line : List Char) :
    (applyAttrs e line).file =
      match attrString "file".data line with
      | some v => some v
      | none => e.file := by
  unfold applyAttrs
  cases h1 : attrString "name".data line <;> cases h2 : attrString "file".data line <;>
    cases h3 : attrInt "first".data line <;> cases h4 : attrInt "last".data line <;>
      simp [h1, h2, h3, h4]

theorem applyAttrs_first (e : ReadEntry) (line : List Char) :
    (applyAttrs e line).first =
      match attrInt "first".data line with
      | some v => some v
      | none => e.first := by
  unfold applyAttrs
  cases h1 : attrString "name".data line <;> cases h2 : attrString "file".data line <;>
    cases h3 : attrInt "first".data line <;> cases h4 : attrInt "last".data line <;>
      simp [h1, h2, h3, h4]

theorem applyAttrs_last (e : ReadEntry) (line : List Char) :
    (applyAttrs e line).last =
      match attrInt "last".data line with
      | some v => some v
      | none => e.last := by
  unfold applyAttrs
  cases h1 : attrString "name".data line <;> cases h2 : attrString "file".data line <;>
    cases h3 : attrInt "first".data line <;> cases h4 : attrInt "last".data line <;>
      simp [h1, h2, h3, h4]

theorem foldl_applyAttrs_name (ls : List (List Char)) :
    ∀ e : ReadEntry, (ls.foldl applyAttrs e).name =
      match ls.reverse.findSome? (fun l => attrString "name".data l) with
      | some v => some v
      | none => e.name := by
  induction ls with
  | nil => intro e; rfl
  | cons l ls' ih =>
    intro e
    rw [List.foldl_cons, ih, List.reverse_cons, findSome_app]
    cases h : ls'.reverse.findSome? (fun l => attrString "name".data l) with
    | some v => rfl
    | none =>
      rw [applyAttrs_name]
      cases h2 : attrString "name".data l <;>
        simp [List.findSome?_cons, h2]

theorem foldl_applyAttrs_file (ls : List (List Char)) :
    ∀ e : ReadEntry, (ls.foldl applyAttrs e).file =
      match ls.reverse.findSome? (fun l => attrString "file".data l) with
      | some v => some v
      | none => e.file := by
  induction ls with
  | nil => intro e; rfl
  | cons l ls' ih =>
    intro e
    rw [List.foldl_cons, ih, List.reverse_cons, findSome_app]
    cases h : ls'.reverse.findSome? (fun l => attrString "file".data l) with
    | some v => rfl
    | none =>
      rw [applyAttrs_file]
      cases h2 : attrString "file".data l <;>
        simp [List.findSome?_cons, h2]

theorem foldl_applyAttrs_first (ls : List (List Char)) :
    ∀ e : ReadEntry, (ls.foldl applyAttrs e).first =
      match ls.reverse.findSome? (fun l => attrInt "first".data l) with
      | some v => some v
      | none => e.first := by
  induction ls with
  | nil => intro e; rfl
  | cons l ls' ih =>
    intro e
    rw [List.foldl_cons, ih, List.reverse_cons, findSome_app]
    cases h : ls'.reverse.findSome? (fun l => attrInt "first".data l) with
    | some v => rfl
    | none =>
      rw [applyAttrs_first]
      cases h2 : attrInt "first".data l <;>
        simp [List.findSome?_cons, h2]

theorem foldl_applyAttrs_last (ls : List (List Char)) :
    ∀ e : ReadEntry, (ls.foldl applyAttrs e).last =
      match ls.reverse.findSome? (fun l => attrInt "last".data l) with
      | some v => some v
      | none => e.last := by
  induction ls with
  | nil => intro e; rfl
  | cons l ls' ih =>
    intro e
    rw [List.foldl_cons, ih, List.reverse_cons, findSome_app]
    cases h : ls'.reverse.findSome? (fun l => attrInt "last".data l) with
    | some v => rfl
    | none =>
      rw [applyAttrs_last]
      cases h2 : attrInt "last".data l <;>
        simp [List.findSome?_cons, h2]

theorem parse_block_aux (body : List (List Char)) :
    ∀ (acc : List ReadEntry) (e : ReadEntry) (d : Int),
      body ≠ [] →
      (∀ i < body.length - 1, 0 < depthAfter d (body.take (i + 1))) →
      depthAfter d body ≤ 0 →
      body.foldl parseLine { reads := acc, current := some e, depth := d } =
        { reads := acc ++ [body.foldl applyAttrs e], current := none,
          depth := depthAfter d body } := by
  induction body with
  | nil => intro _ _ _ h; cases h rfl
  | cons l rest ih =>
    intro acc e d _ hmid hend
    rw [List.foldl_cons]
    have hstep : parseLine ⟨acc, some e, d⟩ l =
        if d + braceDelta l ≤ 0 then
          ⟨acc ++ [applyAttrs e l], none, d + braceDelta l⟩
        else ⟨acc, some (applyAttrs e l), d + braceDelta l⟩ := rfl
    cases rest with
    | nil =>
      have hd : d + braceDelta l ≤ 0 := by
        simpa [depthAfter] using hend
      rw [hstep, if_pos hd]
      simp [depthAfter]
    | cons l2 rest2 =>
      have h0 : 0 < depthAfter d [l] := by
        have := hmid 0 (by simp)
        simpa using this
      have hd : ¬ (d + braceDelta l ≤ 0) := by
        simp only [depthAfter, List.foldl_cons, List.foldl_nil] at h0
        omega
      rw [hstep, if_neg hd]
      have hmid' : ∀ i < (l2 :: rest2).length - 1,
          0 < depthAfter (d + braceDelta l) ((l2 :: rest2).take (i + 1)) := by
        intro i hi
        have := hmid (i + 1) (by simp at hi ⊢; omega)
        simpa [depthAfter, List.take_succ_cons] using this
      have hend' : depthAfter (d + braceDelta l) (l2 :: rest2) ≤ 0 := by
        simpa [depthAfter] using hend
      rw [ih acc (applyAttrs e l) (d + braceDelta l) (by simp) hmid' hend']
      have hda : depthAfter (d + braceDelta l) (l2 :: rest2) =
          depthAfter d (l :: l2 :: rest2) := by
        simp [depthAfter]
      rw [hda]
      rfl

theorem orderedInsertB_perm (a : String) (l : List String) :
    (orderedInsertB a l).Perm (a :: l) := by
  induction l with
  | nil => exact List.Perm.refl _
  | cons b t ih =>
    rw [orderedInsertB]
    by_cases h : strLe a b = true
    · rw [if_pos h]
    · rw [if_neg h]
      exact (ih.cons b).trans (List.Perm.swap a b t)

theorem insertionSortB_perm (l : List String) : (insertionSortB l).Perm l := by
  induction l with
  | nil => exact List.Perm.refl _
  | cons a t ih =>
    rw [insertionSortB]
    exact (orderedInsertB_perm a (insertionSortB t)).trans (ih.cons a)

theorem uniqueSources_perm (srcs : List String) :
    (uniqueSources srcs).Perm srcs.dedup :=
  insertionSortB_perm _

theorem uniqueSources_nodup (srcs : List String) : (uniqueSources srcs).Nodup :=
  ((uniqueSources_perm srcs).nodup_iff).mpr (List.nodup_dedup srcs)

theorem mem_uniqueSources {p : String} {srcs : List String} :
    p ∈ uniqueSources srcs ↔ p ∈ srcs := by
  rw [(uniqueSources_perm srcs).mem_iff, List.mem_dedup]

theorem uniqueSources_length (srcs : List String) :
    (uniqueSources srcs).length = srcs.toFinset.card := by
  rw [(uniqueSources_perm srcs).length_eq, List.card_toFinset]

theorem toFinset_flatten (lists : List (List String)) :
    lists.flatten.toFinset =
      lists.foldr (fun l acc => l.toFinset ∪ acc) (∅ : Finset String) := by
  induction lists with
  | nil => simp
  | cons l ls ih => simp [List.toFinset_append, ih]

theorem count_uniqueSources (p : String) (srcs : List String) :
    (uniqueSources srcs).count p = srcs.dedup.count p :=
  (uniqueSources_perm srcs).count_eq p

theorem tallyAux_len (outs : List Outcome) :
    ∀ r : Report,
      (outs.foldl tallyStep r).success.length + (outs.foldl tallyStep r).dryrun.length +
        (outs.foldl tallyStep r).missing.length + (outs.foldl tallyStep r).errors.length =
      (r.success.length + r.dryrun.length + r.missing.length + r.errors.length) +
        outs.length := by
  induction outs with
  | nil => intro r; simp
  | cons o rest ih =>
    intro r
    rw [List.foldl_cons, ih]
    cases h : o.status <;> simp [tallyStep, h] <;> omega

theorem tallyAux_count (outs : List Outcome) (p : String) :
    ∀ r : Report,
      (outs.foldl tallyStep r).success.count p + (outs.foldl tallyStep r).dryrun.count p +
        (outs.foldl tallyStep r).missing.count p + (outs.foldl tallyStep r).errors.count p =
      (r.success.count p + r.dryrun.count p + r.missing.count p + r.errors.count p) +
        (outs.map (fun o => o.src)).count p := by
  induction outs with
  | nil => intro r; simp
  | cons o rest ih =>
    intro r
    rw [List.foldl_cons, ih, List.map_cons]
    by_cases hp : p = o.src
    · cases h : o.status <;>
        simp [tallyStep, h, List.count_append, List.count_cons, hp] <;> omega
    · cases h : o.status <;>
        simp [tallyStep, h, List.count_append, List.count_cons, hp, Ne.symm hp] <;> omega

theorem copy_worker_src (fs : FS) (dry : Bool) (s : String) :
    (copy_worker fs dry s).1.src = s := by
  unfold copy_worker
  by_cases h : fs.pathExists s
  · rw [if_neg (by simp [h])]
    cases dry with
    | true => rfl
    | false =>
      cases hm : fs.makedirsErr (pyDirname (build_dst_path s)) with
      | some msg => simp [hm]
      | none =>
        cases hc : fs.copy2Err s (build_dst_path s) with
        | some msg => simp [hm, hc]
        | none => simp [hm, hc]
  · rw [if_pos (by simp [h])]

/-!
Claim theorems.
-/

/-- C1: parsing a scene whose text holds exactly one Read block with file
"img.####.exr", first 1, last 3 yields one record; expanding that record
yields exactly img.0001.exr, img.0002.exr, img.0003.exr in ascending frame
order; and running the pipeline over a file system on which none of the
three exists produces a report with Missing count 3 and Success, Error and
Simulated counts all 0. -/
theorem claim_C1_end_to_end :
    parse_nk_for_reads sceneLines =
      [{ node_type := "Read", name := none, file := some "img.####.exr",
         first := some 1, last := some 3 }] ∧
    expand_read_to_files
        { node_type := "Read", name := none, file := some "img.####.exr",
          first := some 1, last := some 3 } =
      .ok ["img.0001.exr", "img.0002.exr", "img.0003.exr"] ∧
    runMain fsNone true sceneLines =
      .ok (some { success := [],
                  missing := ["img.0001.exr", "img.0002.exr", "img.0003.exr"],
                  errors := [], dryrun := [] }) ∧
    (reportOf (runMain fsNone true sceneLines)).missing.length = 3 ∧
    (reportOf (runMain fsNone true sceneLines)).success.length = 0 ∧
    (reportOf (runMain fsNone true sceneLines)).errors.length = 0 ∧
    (reportOf (runMain fsNone true sceneLines)).dryrun.length = 0 := by
  exact ⟨by decide, by decide, by decide, by decide, by decide, by decide, by decide⟩

/-- C2 counterexample: the pattern "%" (a lone percent, a malformed
placeholder) makes expansion raise ValueError — CPython's "incomplete
format" — instead of returning a list, so expansion does not terminate
without raising for every pattern. -/
theorem claim_C2_counterexample :
    expand_read_to_files
        { node_type := "Read", name := none, file := some "%",
          first := some 1, last := some 1 } =
      .error .valueError ∧
    (expand_read_to_files
        { node_type := "Read", name := none, file := some "%",
          first := some 1, last := some 1 }).isOk = false := by
  exact ⟨by decide, by decide⟩

/-- C2 amended: expansion terminates without raising for every pattern that
contains no '%' character (in particular for every hash pattern, bracketed
expression and literal path), and when printf-style substitution of the
first frame into a '%' pattern fails with TypeError, expansion returns the
single unsubstituted pattern as its only element and stops; but a malformed
placeholder whose substitution raises another exception (e.g. ValueError
for a lone '%') propagates it. -/
theorem claim_C2_amended (p : List Char) (f? l? : Option Int)
    (h : hasChar '%' p = false ∨
      percentFormat p (f?.getD 1) = .error .typeError) :
    (expandCore p f? l?).isOk = true ∧
    (hasChar '%' p = true →
      ¬ (hasChar '[' p = true ∧ hasChar ']' p = true) →
      percentFormat p (f?.getD 1) = .error .typeError →
      f?.getD 1 ≤ l?.getD (f?.getD 1) →
      expandCore p f? l? = .ok [p]) := by
  constructor
  · by_cases hpct : hasChar '%' p = true
    · rcases h with hl | hr
      · rw [hl] at hpct
        cases hpct
      · have hne : p ≠ [] := by
          intro h0
          rw [h0] at hpct
          cases hpct
        unfold expandCore
        rw [if_neg hne]
        by_cases hbr : hasChar '[' p = true ∧ hasChar ']' p = true
        · rw [if_pos hbr]
          rfl
        · rw [if_neg hbr, if_neg (by simp [hpct])]
          unfold expandTail
          rw [if_pos hpct]
          by_cases hle : f?.getD 1 ≤ l?.getD (f?.getD 1)
          · rw [rangeList_cons hle, substLoop_typeError _ hr]
            rfl
          · rw [rangeList_nil (by omega)]
            rfl
    · exact expandCore_noPct_isOk (Bool.not_eq_true _ ▸ hpct) f? l?
  · intro hpct hbr herr hle
    exact expandCore_typeError f? l? hpct hbr herr hle

/-- C2 witness: the pattern "a%d%d" has two placeholders but only one frame
argument, so substitution raises TypeError and expansion degrades to the
single unsubstituted pattern. -/
theorem claim_C2_witness :
    expandCore "a%d%d".data (some 1) (some 3) = .ok ["a%d%d".data] ∧
    (expandCore "a%d%d".data (some 1) (some 3)).isOk = true := by
  have h := claim_C2_amended "a%d%d".data (some 1) (some 3) (Or.inr (by decide))
  exact ⟨h.2 (by decide) (by decide) (by decide) (by decide), h.1⟩

/-- C3 counterexample: Python str.replace replaces every occurrence of the
first hash run's text, not only the first run: the pattern "x.##.y.##.z"
is rewritten to "x.%02d.y.%02d.z" (both runs changed), which then fails
substitution with TypeError and yields the single rewritten pattern, not
the three paths the claim predicts with the second run left unchanged. -/
theorem claim_C3_counterexample :
    expandCore "x.##.y.##.z".data (some 1) (some 3) =
      .ok ["x.%02d.y.%02d.z".data] ∧
    expandCore "x.##.y.##.z".data (some 1) (some 3) ≠
      .ok ["x.01.y.##.z".data, "x.02.y.##.z".data, "x.03.y.##.z".data] := by
  exact ⟨by decide, by decide⟩

/-- C3 amended: for a pattern whose only hash run occurs once (no '#'
outside the run) and which contains no '%' and not both '[' and ']', the
run is replaced by a zero-padded printf placeholder whose width equals the
run length, and expansion yields one path per frame of the inclusive range
in ascending order, the run replaced by the zero-padded frame number; in
general str.replace rewrites every occurrence of the run's text.  With
range [1, 3] and a 4-character run this gives exactly 0001, 0002, 0003. -/
theorem claim_C3_amended (pre suf : List Char) (k : Nat) (f l : Int)
    (hk : 1 ≤ k)
    (hpreH : hasChar '#' pre = false) (hsufH : hasChar '#' suf = false)
    (hpreP : hasChar '%' pre = false) (hsufP : hasChar '%' suf = false)
    (hbr : ¬ (hasChar '[' (pre ++ (List.replicate k '#' ++ suf)) = true ∧
              hasChar ']' (pre ++ (List.replicate k '#' ++ suf)) = true)) :
    expandCore (pre ++ (List.replicate k '#' ++ suf)) (some f) (some l) =
      .ok ((rangeList f l).map fun n => pre ++ zeroPad k n ++ suf) := by
  have hne : pre ++ (List.replicate k '#' ++ suf) ≠ [] := by
    intro h0
    have hlen := congrArg List.length h0
    simp [List.length_append] at hlen
    omega
  have hhash : hasChar '#' (pre ++ (List.replicate k '#' ++ suf)) = true := by
    rw [hasChar_append, hasChar_append]
    have hr : hasChar '#' (List.replicate k '#') = true := by
      rw [hasChar_iff_mem]
      exact List.mem_replicate.mpr ⟨by omega, rfl⟩
    simp [hr]
  have hpct : hasChar '%' (pre ++ (List.replicate k '#' ++ suf)) = false := by
    rw [hasChar_append, hasChar_append, hpreP, hsufP]
    have hr : hasChar '%' (List.replicate k '#') = false := by
      rw [hasChar_eq_false]
      intro hm
      exact absurd (List.eq_of_mem_replicate hm) (by decide)
    simp [hr]
  unfold expandCore
  rw [if_neg hne, if_neg hbr, if_pos ⟨hhash, by simp [hpct]⟩]
  have hrw : hashRewrite (pre ++ (List.replicate k '#' ++ suf)) =
      pre ++ (hashFmtChars k ++ suf) := by
    unfold hashRewrite
    rw [firstHashRun_of_shape hpreH hk hsufH]
    show replaceAll _ (List.replicate k '#')
      (hashFmt (List.replicate k '#').length) = _
    rw [List.length_replicate, hashFmt_eq]
    exact replaceAll_single hpreH hsufH hk _
  rw [hrw]
  unfold expandTail
  have hpct2 : hasChar '%' (pre ++ (hashFmtChars k ++ suf)) = true := by
    rw [hasChar_append, hasChar_append]
    have hr : hasChar '%' (hashFmtChars k) = true := by
      rw [hasChar_iff_mem]
      exact List.mem_cons_self _ _
    simp [hr]
  rw [if_pos hpct2]
  have hfmt : ∀ a : Int, percentFormat (pre ++ (hashFmtChars k ++ suf)) a =
      .ok (pre ++ zeroPad k a ++ suf) := by
    intro a
    have hs := percentFormat_shape hpreP hsufP hk a
    rw [← List.append_assoc]
    exact hs
  rw [substLoop_ok hfmt]
  rfl

/-- C3 witness: the scenario of the claim, pattern img.####.exr with frame
range [1, 3]. -/
theorem claim_C3_witness :
    expandCore "img.####.exr".data (some 1) (some 3) =
      .ok ["img.0001.exr".data, "img.0002.exr".data, "img.0003.exr".data] := by
  have h := claim_C3_amended "img.".data ".exr".data 4 1 3 (by decide) (by decide)
    (by decide) (by decide) (by decide) (by decide)
  exact h

/-- C4: for every list of parsed dependency records whose expansions all
succeed, the deduplicated work list actually dispatched contains each
literal source path exactly once — even when a path is produced by several
records or several frames — and its size equals the cardinality of the
union of the records' expanded path sets, not the sum of their lengths. -/
theorem claim_C4_dedup (rs : List ReadEntry) (lists : List (List String))
    (h : expandAll rs = .ok lists) :
    (uniqueSources lists.flatten).Nodup ∧
    (∀ p : String, p ∈ uniqueSources lists.flatten ↔ p ∈ lists.flatten) ∧
    (uniqueSources lists.flatten).length =
      (lists.foldr (fun l acc => l.toFinset ∪ acc) (∅ : Finset String)).card := by
  refine ⟨uniqueSources_nodup _, fun p => mem_uniqueSources, ?_⟩
  rw [uniqueSources_length, toFinset_flatten]

/-- C4 witness: two records with overlapping frame ranges share the path
a.02.b; the dispatched set has 3 elements, the union's cardinality, not
4, the sum of the expansion lengths. -/
theorem claim_C4_witness :
    (uniqueSources ([["a.01.b", "a.02.b"], ["a.02.b", "a.03.b"]] :
        List (List String)).flatten).Nodup ∧
    (∀ p : String,
      p ∈ uniqueSources ([["a.01.b", "a.02.b"], ["a.02.b", "a.03.b"]] :
          List (List String)).flatten ↔
      p ∈ ([["a.01.b", "a.02.b"], ["a.02.b", "a.03.b"]] :
          List (List String)).flatten) ∧
    (uniqueSources ([["a.01.b", "a.02.b"], ["a.02.b", "a.03.b"]] :
        List (List String)).flatten).length =
      (([["a.01.b", "a.02.b"], ["a.02.b", "a.03.b"]] : List (List String)).foldr
        (fun l acc => l.toFinset ∪ acc) (∅ : Finset String)).card := by
  exact claim_C4_dedup
    [{ node_type := "Read", name := none, file := some "a.%02d.b",
       first := some 1, last := some 2 },
     { node_type := "Read", name := none, file := some "a.%02d.b",
       first := some 2, last := some 3 }]
    [["a.01.b", "a.02.b"], ["a.02.b", "a.03.b"]] (by decide)

/-- C5: for every deduplicated task set, every distinct input path receives
exactly one outcome, each outcome carries exactly one of the four statuses
(the Status type is a closed four-constructor variant), and the four status
counts of the final report sum to exactly the number of tasks. -/
theorem claim_C5_report_complete (fs : FS) (dry : Bool) (srcs : List String) :
    ((tally ((uniqueSources srcs).map fun s => (copy_worker fs dry s).1)).success.length +
      (tally ((uniqueSources srcs).map fun s => (copy_worker fs dry s).1)).dryrun.length +
      (tally ((uniqueSources srcs).map fun s => (copy_worker fs dry s).1)).missing.length +
      (tally ((uniqueSources srcs).map fun s => (copy_worker fs dry s).1)).errors.length =
      (uniqueSources srcs).length) ∧
    (uniqueSources srcs).Nodup ∧
    (∀ p : String,
      (tally ((uniqueSources srcs).map fun s => (copy_worker fs dry s).1)).success.count p +
      (tally ((uniqueSources srcs).map fun s => (copy_worker fs dry s).1)).dryrun.count p +
      (tally ((uniqueSources srcs).map fun s => (copy_worker fs dry s).1)).missing.count p +
      (tally ((uniqueSources srcs).map fun s => (copy_worker fs dry s).1)).errors.count p =
      (uniqueSources srcs).count p) := by
  have hmap : ((uniqueSources srcs).map fun s => (copy_worker fs dry s).1).map
      (fun o => o.src) = uniqueSources srcs := by
    rw [List.map_map]
    have hcomp : ((fun o : Outcome => o.src) ∘ fun s => (copy_worker fs dry s).1) =
        fun s => (copy_worker fs dry s).1.src := rfl
    rw [hcomp]
    have hcong := List.map_congr_left
      (fun s (_ : s ∈ uniqueSources srcs) => copy_worker_src fs dry s)
    rw [hcong]
    exact List.map_id' _
  refine ⟨?_, uniqueSources_nodup _, ?_⟩
  · have hlen := tallyAux_len
      ((uniqueSources srcs).map fun s => (copy_worker fs dry s).1) ⟨[], [], [], []⟩
    simpa [tally, List.length_map] using hlen
  · intro p
    have hcnt := tallyAux_count
      ((uniqueSources srcs).map fun s => (copy_worker fs dry s).1) p ⟨[], [], [], []⟩
    rw [hmap] at hcnt
    simpa [tally] using hcnt

/-- C6: in dry-run mode a worker performs no file-system mutation of any
kind — its list of attempted operations is empty — and classifies the task
Simulated when the source exists and Missing when it does not. -/
theorem claim_C6_dry_run_frame (fs : FS) (src : String) :
    (copy_worker fs true src).2 = [] ∧
    (copy_worker fs true src).1.status =
      (if fs.pathExists src then Status.dry_run else Status.missing) := by
  by_cases h : fs.pathExists src <;> simp [copy_worker, h]

/-- C7 counterexample: a missing source also carries an error detail (the
fixed string "source not found"), so errorDetail is not present only for
Error outcomes. -/
theorem claim_C7_counterexample :
    (copy_worker fsNone true "a").1.status = Status.missing ∧
    ((copy_worker fsNone true "a").1.err).isSome = true := by
  exact ⟨by decide, by decide⟩

/-- C7 amended: a worker outcome carries an error detail exactly when its
status is Error or Missing; for Missing the detail is always the fixed
string "source not found", for Error it is the exception text. -/
theorem claim_C7_amended (fs : FS) (dry : Bool) (src : String) :
    (((copy_worker fs dry src).1.err).isSome = true ↔
      ((copy_worker fs dry src).1.status = Status.error ∨
        (copy_worker fs dry src).1.status = Status.missing)) ∧
    ((copy_worker fs dry src).1.status = Status.missing →
      (copy_worker fs dry src).1.err = some "source not found") := by
  unfold copy_worker
  by_cases h : fs.pathExists src
  · rw [if_neg (by simp [h])]
    cases dry with
    | true => simp
    | false =>
      cases hm : fs.makedirsErr (pyDirname (build_dst_path src)) with
      | some msg => simp [hm]
      | none =>
        cases hc : fs.copy2Err src (build_dst_path src) with
        | some msg => simp [hm, hc]
        | none => simp [hm, hc]
  · rw [if_pos (by simp [h])]
    simp

/-- C8: a pattern containing both a '[' and a ']' character is treated as
an unresolvable embedded expression: expansion returns the empty sequence
without raising, for every frame range, so the pattern contributes zero
copy tasks (the source logs the skip and continues; it is never fatal). -/
theorem claim_C8_bracket_skip (e : ReadEntry) (s : String) (hf : e.file = some s)
    (h1 : hasChar '[' s.data = true) (h2 : hasChar ']' s.data = true) :
    expand_read_to_files e = .ok [] := by
  unfold expand_read_to_files
  rw [hf]
  have h1' : hasChar '[' (pyStripL s.data) = true :=
    hasChar_iff_mem.mpr (mem_pyStripL_of_mem (by decide) (hasChar_iff_mem.mp h1))
  have h2' : hasChar ']' (pyStripL s.data) = true :=
    hasChar_iff_mem.mpr (mem_pyStripL_of_mem (by decide) (hasChar_iff_mem.mp h2))
  have hne : pyStripL s.data ≠ [] := by
    intro h0
    rw [h0] at h1'
    cases h1'
  show (expandCore (pyStripL s.data) e.first e.last).map _ = .ok []
  unfold expandCore
  rw [if_neg hne, if_pos ⟨h1', h2'⟩]
  rfl

/-- C8 witness: the TCL expression pattern of the claim. -/
theorem claim_C8_witness :
    expand_read_to_files
        { node_type := "Read", name := none, file := some "[expr]",
          first := some 1, last := some 9 } = .ok [] := by
  exact claim_C8_bracket_skip
    { node_type := "Read", name := none, file := some "[expr]",
      first := some 1, last := some 9 } "[expr]" rfl (by decide) (by decide)

/-- C9 counterexample: the whitespace-only pattern "  " contains no '#',
no '%' and no brackets, yet expansion returns the empty sequence, not the
one-element sequence holding the trimmed (empty) pattern: the source
returns early on a pattern that is empty after stripping. -/
theorem claim_C9_counterexample :
    expand_read_to_files
        { node_type := "Read", name := none, file := some "  ",
          first := none, last := none } = .ok [] ∧
    (Except.ok ([] : List String) : Except PyErr (List String)) ≠ .ok [""] := by
  exact ⟨by decide, by decide⟩

/-- C9 amended: for every pattern that contains no '#', no '%', not both
'[' and ']', and that is nonempty after stripping, expansion returns
exactly one path: the pattern with surrounding whitespace trimmed. -/
theorem claim_C9_amended (e : ReadEntry) (s : String) (hf : e.file = some s)
    (hh : hasChar '#' s.data = false) (hp : hasChar '%' s.data = false)
    (hbr : ¬ (hasChar '[' s.data = true ∧ hasChar ']' s.data = true))
    (hne : pyStripL s.data ≠ []) :
    expand_read_to_files e = .ok [pyStrip s] := by
  unfold expand_read_to_files
  rw [hf]
  show (expandCore (pyStripL s.data) e.first e.last).map _ = _
  have hstrip : ∀ c : Char, hasChar c s.data = false →
      hasChar c (pyStripL s.data) = false := by
    intro c hc
    rw [hasChar_eq_false] at hc ⊢
    exact fun hmem => hc (mem_of_mem_pyStripL hmem)
  have hbr' : ¬ (hasChar '[' (pyStripL s.data) = true ∧
      hasChar ']' (pyStripL s.data) = true) := by
    intro ⟨hb1, hb2⟩
    exact hbr ⟨hasChar_iff_mem.mpr (mem_of_mem_pyStripL (hasChar_iff_mem.mp hb1)),
      hasChar_iff_mem.mpr (mem_of_mem_pyStripL (hasChar_iff_mem.mp hb2))⟩
  unfold expandCore
  rw [if_neg hne, if_neg hbr', if_neg (by simp [hstrip '#' hh])]
  unfold expandTail
  rw [if_neg (by simp [hstrip '%' hp])]
  rfl

/-- C9 witness: a plain literal path with surrounding whitespace. -/
theorem claim_C9_witness :
    expand_read_to_files
        { node_type := "Read", name := none, file := some " plain.exr ",
          first := none, last := none } = .ok ["plain.exr"] := by
  exact claim_C9_amended
    { node_type := "Read", name := none, file := some " plain.exr ",
      first := none, last := none } " plain.exr " rfl (by decide) (by decide)
    (by decide) (by decide)

/-- C10: whenever two or more lines inside a single read-type block match
the same attribute form before the block's brace depth returns to zero —
including lines inside nested sub-blocks and the line on which the block
closes — the emitted record carries the value from the last such line:
each field of the record equals the value of the last matching line of the
block body (findSome? over the reversed body). -/
theorem claim_C10_last_wins (start : String) (body : List String) (t : String)
    (hstart : nodeStart start.data = some t)
    (hne : body ≠ [])
    (hmid : ∀ i < body.length - 1,
      0 < depthAfter (initDepth start.data) ((body.map String.data).take (i + 1)))
    (hend : depthAfter (initDepth start.data) (body.map String.data) ≤ 0) :
    parse_nk_for_reads (start :: body) =
      [(body.map String.data).foldl applyAttrs { node_type := t }] ∧
    ((body.map String.data).foldl applyAttrs { node_type := t }).name =
      (body.map String.data).reverse.findSome? (fun l => attrString "name".data l) ∧
    ((body.map String.data).foldl applyAttrs { node_type := t }).file =
      (body.map String.data).reverse.findSome? (fun l => attrString "file".data l) ∧
    ((body.map String.data).foldl applyAttrs { node_type := t }).first =
      (body.map String.data).reverse.findSome? (fun l => attrInt "first".data l) ∧
    ((body.map String.data).foldl applyAttrs { node_type := t }).last =
      (body.map String.data).reverse.findSome? (fun l => attrInt "last".data l) := by
  have hlen : (body.map String.data).length = body.length := List.length_map _ _
  have hne' : body.map String.data ≠ [] := by
    intro h0
    exact hne (List.map_eq_nil_iff.mp h0)
  refine ⟨?_, ?_, ?_, ?_, ?_⟩
  · unfold parse_nk_for_reads
    rw [show (start :: body).foldl (fun st l => parseLine st l.data) ⟨[], none, 0⟩ =
      ((start :: body).map String.data).foldl parseLine ⟨[], none, 0⟩ from
      (List.foldl_map _ _ _ _).symm]
    rw [List.map_cons, List.foldl_cons]
    have hfirst : parseLine ⟨[], none, 0⟩ start.data =
        ⟨[], some { node_type := t }, initDepth start.data⟩ := by
      show (match nodeStart start.data with
        | some t => { reads := [], current := some { node_type := t },
                      depth := initDepth start.data }
        | none => ⟨[], none, 0⟩ : ParseState) = _
      rw [hstart]
    rw [hfirst]
    rw [parse_block_aux (body.map String.data) [] { node_type := t }
      (initDepth start.data) hne' (by rw [hlen]; exact hmid) hend]
    rfl
  · rw [foldl_applyAttrs_name]
    cases h : (body.map String.data).reverse.findSome?
      (fun l => attrString "name".data l) <;> rfl
  · rw [foldl_applyAttrs_file]
    cases h : (body.map String.data).reverse.findSome?
      (fun l => attrString "file".data l) <;> rfl
  · rw [foldl_applyAttrs_first]
    cases h : (body.map String.data).reverse.findSome?
      (fun l => attrInt "first".data l) <;> rfl
  · rw [foldl_applyAttrs_last]
    cases h : (body.map String.data).reverse.findSome?
      (fun l => attrInt "last".data l) <;> rfl

/-- C10 witness: a block with a duplicated file attribute (once inside a
nested sub-block) and a duplicated first attribute; the emitted record
carries the last values, file "c" and first 7. -/
theorem claim_C10_witness :
    parse_nk_for_reads
        ["Read \x7b", " file \"a\"", " sub \x7b", " file \"b\"", " \x7d",
         " first 1", " first 7", " file \"c\"", "\x7d"] =
      [{ node_type := "Read", name := none, file := some "c",
         first := some 7, last := none }] := by
  have h := claim_C10_last_wins "Read \x7b"
    [" file \"a\"", " sub \x7b", " file \"b\"", " \x7d",
     " first 1", " first 7", " file \"c\"", "\x7d"] "Read"
    (by decide) (by decide) (by decide) (by decide)
  rw [h.1]
  decide

end NkCopy
